import Mathlib

/-!
Verification of the CORDIC lookup-table generator (`scripts/lookup_gen.py`).

The script has three parts:
* `generate_cordic_lut n_iter` — builds `angles[i] = atan(2^-i)` and the gain
  `K = Π 1/sqrt(1 + 2^(-2i))`, modelled over `ℝ`;
* `format_qmn angles m n` — quantizes each angle into a signed Qm.n value
  left-justified in a 32-bit word and serialized as `0x` plus 8 upper-case hex
  digits; modelled over `ℚ` (each IEEE double is an exact rational, and every
  operation the code performs on it — multiplication by the power of two
  `1 << n`, Python `round`, integer arithmetic — is exact on that rational
  value, so the rational model computes bit-exactly what the script computes);
* the Verilog emission in `main` — pure string templating, modelled as the
  rendered text.
-/

namespace CordicLut

/-- Python `round` semantics (round-half-to-even, banker's rounding), as
applied in `int(round(angle * (1 << n)))`. -/
def roundHalfEven (q : ℚ) : ℤ :=
  let f : ℤ := ⌊q⌋
  let r : ℚ := q - f
  if r < 1/2 then f
  else if 1/2 < r then f + 1
  else if f % 2 = 0 then f else f + 1

/-- The two sequential clamp tests of `format_qmn`:
`if scaled > max_int: scaled = max_int` then
`if scaled < -half_range: scaled = -half_range`,
with `max_int = (1 << (m + n)) - 1` and `half_range = 1 << (m + n)`. -/
def clampQmn (m n : ℕ) (scaled : ℤ) : ℤ :=
  let maxInt : ℤ := 2 ^ (m + n) - 1
  let halfRange : ℤ := 2 ^ (m + n)
  let s1 : ℤ := if scaled > maxInt then maxInt else scaled
  if s1 < -halfRange then -halfRange else s1

/-- The per-angle loop body of `format_qmn`, producing the 32-bit word:
`scaled = int(round(angle * (1 << n)))`, the clamp, `twos = scaled & mask`
with `mask = (1 << total_bits) - 1` (for a Python arbitrary-precision int,
`x & ((1 << k) - 1)` is exactly `x mod 2^k`, non-negative), and
`word = twos << shift_left`. -/
def encodeWord (m n : ℕ) (angle : ℚ) : ℕ :=
  let totalBits : ℕ := 1 + m + n
  let shiftLeft : ℕ := 32 - totalBits
  let scaled : ℤ := roundHalfEven (angle * 2 ^ n)
  let clamped : ℤ := clampQmn m n scaled
  let twos : ℕ := (clamped % (2 ^ totalBits : ℤ)).toNat
  twos * 2 ^ shiftLeft

/-- Upper-case hexadecimal digit, as produced by Python's `"{0:08X}".format`
(the characters `0`–`9` are codes 48–57 and `A`–`F` are codes 65–70). -/
def hexDigitU (d : ℕ) : Char :=
  if d < 10 then Char.ofNat (48 + d) else Char.ofNat (55 + d)

/-- The `k` low hex digits of `w`, most significant first (zero padded). -/
def hexChars : ℕ → ℕ → List Char
  | 0, _ => []
  | k + 1, w => hexChars k (w / 16) ++ [hexDigitU (w % 16)]

/-- The serialization `f"0x{word:08X}"` of one encoded word. -/
def toHex8 (w : ℕ) : String := "0x" ++ String.mk (hexChars 8 w)

/-- The sixteen characters a `"{0:08X}"`-formatted digit can be. -/
def hexUpper : List Char := "0123456789ABCDEF".toList

/-- The `sys.exit` message of `format_qmn` when `1 + m + n > 32`:
`f"Error: 1 (sign) + m (.) + n (.) = . bits exceeds 32."` with the values of
`m`, `n` and `total_bits` interpolated. -/
def errMsg (m n : ℕ) : String :=
  "Error: 1 (sign) + m (" ++ toString m ++ ") + n (" ++ toString n ++ ") = "
    ++ toString (1 + m + n) ++ " bits exceeds 32."

/-- The function `format_qmn`: the bit-width precondition check, then the
per-angle encoding loop in input order.  A failing check calls
`sys.exit(message)`, which terminates the process with exit status 1 before
any angle is encoded; we model that as `Except.error message`. -/
def format_qmn (angles : List ℚ) (m n : ℕ) : Except String (List String) :=
  let totalBits : ℕ := 1 + m + n
  if totalBits > 32 then Except.error (errMsg m n)
  else Except.ok (angles.map fun a => toHex8 (encodeWord m n a))

/-- The per-angle word as the specification words it (claim C1): round
half-to-even, a saturating clamp onto `[-2^(m+n), 2^(m+n) - 1]`, mask to the
low `1+m+n` bits (`scaled & ((1 << (1+m+n)) - 1)`, i.e. `mod 2^(1+m+n)`),
then left-shift by `32 - (1+m+n)`. -/
def specWord (m n : ℕ) (angle : ℚ) : ℕ :=
  let scaled : ℤ := roundHalfEven (angle * 2 ^ n)
  let clamped : ℤ := min (max scaled (-(2 ^ (m + n) : ℤ))) (2 ^ (m + n) - 1)
  let twos : ℕ := (clamped % (2 ^ (1 + m + n) : ℤ)).toNat
  twos <<< (32 - (1 + m + n))

/-- Reading a 32-bit word as a signed (two's-complement) 32-bit integer, the
first step of the round-trip decoding described by the specification. -/
def toSigned32 (w : ℕ) : ℤ :=
  if w < 2 ^ 31 then (w : ℤ) else (w : ℤ) - 2 ^ 32

/-- The round-trip decoding described by the specification: arithmetic right
shift of the signed 32-bit value by `32 - (1+m+n)` (floor division by that
power of two), then division by `2^n`. -/
def decodeWord (m n : ℕ) (w : ℕ) : ℚ :=
  (((toSigned32 w).fdiv (2 ^ (32 - (1 + m + n)))) : ℚ) / (2 ^ n : ℚ)

/-- The loop of `generate_cordic_lut`: iteration `i` appends
`math.atan(2.0 ** -i)` and multiplies the accumulator by
`1.0 / math.sqrt(1.0 + 2.0 ** (-2.0 * i))`, starting from `([], 1.0)`.
`generate_cordic_lut k` is the state after the iterations `i = 0 .. k-1`,
so the recursive step performs iteration `k` last. -/
noncomputable def generate_cordic_lut : ℕ → List ℝ × ℝ
  | 0 => ([], 1)
  | k + 1 =>
    let p := generate_cordic_lut k
    (p.1 ++ [Real.arctan ((2 : ℝ) ^ (-(k : ℤ)))],
     p.2 * (1 / Real.sqrt (1 + (2 : ℝ) ^ (-(2 * (k : ℤ))))))

/-- Check that `p` is an initial segment of `s` (character lists). -/
def isPrefixOfChars : List Char → List Char → Bool
  | [], _ => true
  | _ :: _, [] => false
  | a :: as, b :: bs => a == b && isPrefixOfChars as bs

/-- Check that `p` occurs contiguously somewhere in `s` (character lists). -/
def containsChars (p : List Char) : List Char → Bool
  | [] => isPrefixOfChars p []
  | c :: s => isPrefixOfChars p (c :: s) || containsChars p s

/-- Check that the string `pat` occurs contiguously in the string `s`. -/
def strContains (s pat : String) : Bool := containsChars pat.data s.data

/-- One generated assignment line,
`f"        lookup_table(i) <= 32'h(hex_val(2:));\n"` (with `(..)` the
interpolations: the index, and the hex string minus its `0x`). -/
def assignLine (i : ℕ) (hx : String) : String :=
  "        lookup_table[" ++ toString i ++ "] <= 32'h" ++ hx.drop 2 ++ ";\n"

/-- The loop `for i, hex_val in enumerate(hex_values)` writing one assignment
line per encoded word, starting at index `i`. -/
def assignBlock : ℕ → List String → String
  | _, [] => ""
  | i, hx :: rest => assignLine i hx ++ assignBlock (i + 1) rest

/-- The fixed text written before `parameter N = ...` in the Verilog file. -/
def vHeader : String :=
  "////////////////////////////////////////////////////////////////////////////////\n"
    ++ "// Author: Sudeep Joshi\n"
    ++ "// Description: Arctan Look-Up table for CORDIC Unit\n"
    ++ "////////////////////////////////////////////////////////////////////////////////\n"
    ++ "`default_nettype none\n\n"
    ++ "module arctan_lookup #(\n"
    ++ "    parameter N = "

/-- The fixed text between the interpolated values of `N` and `I`. -/
def vMid1 : String := ",\n    parameter I = "

/-- The fixed text between the interpolated `I` and the generated block. -/
def vMid2 : String :=
  "\n) (\n"
    ++ "    input  wire                 clk,\n"
    ++ "    input  wire                 rst_n,\n"
    ++ "    input  wire [$clog2(I)-1:0] j,\n"
    ++ "    output reg  [N-1:0]         arctan\n"
    ++ ");\n\n"
    ++ "    reg [N-1:0] lookup_table[0:I];\n\n"
    ++ "    /*** Python Generated Block ***/\n"
    ++ "    always @(posedge clk) begin\n"
    ++ "       if(~rst_n) begin\n"

/-- The fixed text written after the generated block. -/
def vFooter : String :=
  "    end\n\n"
    ++ "    end\n\n"
    ++ "    always @(posedge clk) begin\n"
    ++ "        arctan <= lookup_table[j];\n"
    ++ "    end \n\n"
    ++ "endmodule\n"

/-- The full text the `--genverilog` branch of `main` writes to
`rtl/lookup.v`, for integer bits `m`, fractional bits `n`, iteration count
`niter` and the already-serialized hex words `hexvals`. -/
def verilogText (m n niter : ℕ) (hexvals : List String) : String :=
  vHeader ++ toString (1 + m + n) ++ vMid1 ++ toString niter ++ vMid2
    ++ assignBlock 0 hexvals ++ vFooter

/-- The Verilog-emission decision of `main`: the file is written only inside
`if args.genverilog:`; there, `parameter N = (1+args.m+args.n)` is evaluated,
which raises an uncaught `TypeError` when `--m` or `--n` was not supplied
(`args.m`/`args.n` is `None`), so the run crashes before any module text is
written — modelled as `Except.error ()`.  `none` models the flag being unset
(the branch is not entered at all). -/
def mainVerilog (genverilog : Bool) (mOpt nOpt : Option ℕ) (niter : ℕ)
    (hexvals : List String) : Option (Except Unit String) :=
  if genverilog then
    some (match mOpt, nOpt with
      | some m, some n => Except.ok (verilogText m n niter hexvals)
      | _, _ => Except.error ())
  else none

end CordicLut

namespace CordicLut

theorem roundHalfEven_err (q : ℚ) : |(roundHalfEven q : ℚ) - q| ≤ 1 / 2 := by
  have h0 : (⌊q⌋ : ℚ) ≤ q := Int.floor_le q
  have h1 : q < (⌊q⌋ : ℚ) + 1 := Int.lt_floor_add_one q
  simp only [roundHalfEven]
  split_ifs with hlt hgt heven <;>
    (rw [abs_le]; push_cast; constructor <;> linarith)

theorem clampQmn_mem (m n : ℕ) (s : ℤ) :
    -(2 ^ (m + n) : ℤ) ≤ clampQmn m n s ∧ clampQmn m n s ≤ 2 ^ (m + n) - 1 := by
  have hB : (0 : ℤ) < 2 ^ (m + n) := by positivity
  simp only [clampQmn]
  split_ifs <;> omega

theorem clampQmn_eq_of_mem (m n : ℕ) (s : ℤ)
    (h1 : -(2 ^ (m + n) : ℤ) ≤ s) (h2 : s ≤ 2 ^ (m + n) - 1) :
    clampQmn m n s = s := by
  simp only [clampQmn]
  split_ifs <;> omega

theorem clampQmn_eq_min_max (m n : ℕ) (s : ℤ) :
    clampQmn m n s = min (max s (-(2 ^ (m + n) : ℤ))) (2 ^ (m + n) - 1) := by
  have hB : (0 : ℤ) < 2 ^ (m + n) := by positivity
  simp only [clampQmn]
  split_ifs <;> omega

theorem specWord_eq_encodeWord (m n : ℕ) (a : ℚ) :
    specWord m n a = encodeWord m n a := by
  simp only [specWord, encodeWord]
  rw [Nat.shiftLeft_eq, clampQmn_eq_min_max]

end CordicLut

namespace CordicLut

theorem isPrefixOfChars_self_append (p t : List Char) :
    isPrefixOfChars p (p ++ t) = true := by
  induction p with
  | nil => rfl
  | cons a as ih => simp [isPrefixOfChars, ih]

theorem isPrefixOfChars_append (p s t : List Char)
    (h : isPrefixOfChars p s = true) : isPrefixOfChars p (s ++ t) = true := by
  induction p generalizing s with
  | nil => rfl
  | cons a as ih =>
    cases s with
    | nil => simp [isPrefixOfChars] at h
    | cons b bs =>
      simp only [isPrefixOfChars, Bool.and_eq_true, beq_iff_eq] at h ⊢
      exact ⟨h.1, ih bs h.2⟩

theorem containsChars_nil (s : List Char) : containsChars [] s = true := by
  induction s with
  | nil => rfl
  | cons c s ih => simp [containsChars, ih, isPrefixOfChars]

theorem containsChars_of_isPrefixOfChars (p s : List Char)
    (h : isPrefixOfChars p s = true) : containsChars p s = true := by
  cases s with
  | nil => exact h
  | cons c s => simp [containsChars, h]

theorem containsChars_append_left (p s t : List Char)
    (h : containsChars p s = true) : containsChars p (s ++ t) = true := by
  induction s with
  | nil =>
    cases p with
    | nil => exact containsChars_nil t
    | cons a as => simp [containsChars, isPrefixOfChars] at h
  | cons c s ih =>
    simp only [containsChars, Bool.or_eq_true] at h
    rcases h with h | h
    · have := isPrefixOfChars_append p (c :: s) t h
      simpa [containsChars, this] using Or.inl this
    · simp [containsChars, ih h]

theorem containsChars_append_right (p s t : List Char)
    (h : containsChars p t = true) : containsChars p (s ++ t) = true := by
  induction s with
  | nil => exact h
  | cons c s ih => simp [containsChars, ih]

theorem containsChars_self_append (p t : List Char) :
    containsChars p (p ++ t) = true :=
  containsChars_of_isPrefixOfChars _ _ (isPrefixOfChars_self_append p t)

theorem strContains_append_left (s t pat : String)
    (h : strContains s pat = true) : strContains (s ++ t) pat = true := by
  simp only [strContains, String.data_append]
  exact containsChars_append_left _ _ _ h

theorem strContains_append_right (s t pat : String)
    (h : strContains t pat = true) : strContains (s ++ t) pat = true := by
  simp only [strContains, String.data_append]
  exact containsChars_append_right _ _ _ h

theorem strContains_self_append (pat t : String) :
    strContains (pat ++ t) pat = true := by
  simp only [strContains, String.data_append]
  exact containsChars_self_append _ _

end CordicLut

namespace CordicLut

theorem strContains_self (s : String) : strContains s s = true := by
  have h := containsChars_self_append s.data []
  rw [List.append_nil] at h
  exact h

theorem emod_eq_add_self_of_neg (s T : ℤ) (h1 : -T ≤ s) (h2 : s < 0) :
    s % T = s + T := by
  have h3 : (s + T * 1) % T = s % T := Int.add_mul_emod_self_left s T 1
  rw [mul_one] at h3
  rw [← h3]
  exact Int.emod_eq_of_lt (by omega) (by omega)

/-- C2: for every `m`, `n`, if `1 + m + n > 32` the encode operation fails
before any per-angle encoding work is done, terminating the run (modelled by
`Except.error`; `sys.exit(msg)` exits with status 1) with a message stating
`m`, `n` and the offending sum `1 + m + n`; if `1 + m + n = 32` it
succeeds. -/
theorem format_qmn_config (angles : List ℚ) (m n : ℕ) :
    (1 + m + n > 32 →
      format_qmn angles m n = Except.error (errMsg m n) ∧
      strContains (errMsg m n) (toString m) = true ∧
      strContains (errMsg m n) (toString n) = true ∧
      strContains (errMsg m n) (toString (1 + m + n)) = true) ∧
    (1 + m + n = 32 →
      ∃ ws, format_qmn angles m n = Except.ok ws) := by
  constructor
  · intro h
    refine ⟨?_, ?_, ?_, ?_⟩
    · simp only [format_qmn]
      rw [if_pos h]
    · simp only [errMsg]
      exact strContains_append_left _ _ _ (strContains_append_left _ _ _
        (strContains_append_left _ _ _ (strContains_append_left _ _ _
          (strContains_append_left _ _ _
            (strContains_append_right _ _ _ (strContains_self _))))))
    · simp only [errMsg]
      exact strContains_append_left _ _ _ (strContains_append_left _ _ _
        (strContains_append_left _ _ _
          (strContains_append_right _ _ _ (strContains_self _))))
    · simp only [errMsg]
      exact strContains_append_left _ _ _
        (strContains_append_right _ _ _ (strContains_self _))
  · intro h
    refine ⟨angles.map fun a => toHex8 (encodeWord m n a), ?_⟩
    simp only [format_qmn]
    rw [if_neg (by omega)]

theorem format_qmn_config_witness :
    (format_qmn [0] 16 16 = Except.error (errMsg 16 16) ∧
      strContains (errMsg 16 16) (toString 16) = true ∧
      strContains (errMsg 16 16) (toString 16) = true ∧
      strContains (errMsg 16 16) (toString (1 + 16 + 16)) = true) ∧
    (∃ ws, format_qmn [0] 15 16 = Except.ok ws) :=
  ⟨(format_qmn_config [0] 16 16).1 (by decide),
   (format_qmn_config [0] 15 16).2 (by decide)⟩

/-- C1: for every list of angles and every `m`, `n` with `1 + m + n ≤ 32`,
the encoder maps each angle independently to the word obtained by rounding
`angle * 2^n` half-to-even, saturating-clamping onto
`[-2^(m+n), 2^(m+n) - 1]`, taking the low `1+m+n` bits of the two's
complement, and shifting left by `32 - (1+m+n)` (here `specWord`, written
from the specification's wording; it coincides with the code's per-angle
computation `encodeWord`). -/
theorem format_qmn_encodes (angles : List ℚ) (m n : ℕ) (h : 1 + m + n ≤ 32) :
    format_qmn angles m n =
      Except.ok (angles.map fun a => toHex8 (specWord m n a)) := by
  have hfun : (fun a => toHex8 (specWord m n a))
      = fun a => toHex8 (encodeWord m n a) := by
    funext a
    rw [specWord_eq_encodeWord]
  simp only [format_qmn]
  rw [if_neg (by omega), hfun]

theorem format_qmn_encodes_witness :
    1 + 1 + 6 ≤ 32 ∧
    format_qmn [785398163397/1000000000000] 1 6 =
      Except.ok ([785398163397/1000000000000].map fun a => toHex8 (specWord 1 6 a)) :=
  ⟨by decide, format_qmn_encodes [785398163397/1000000000000] 1 6 (by decide)⟩

end CordicLut

namespace CordicLut

theorem encodeWord_def (m n : ℕ) (a : ℚ) :
    encodeWord m n a =
      ((clampQmn m n (roundHalfEven (a * 2 ^ n)) % (2 ^ (1 + m + n) : ℤ)).toNat)
        * 2 ^ (32 - (1 + m + n)) := rfl

theorem pow_cast_int (k : ℕ) : (((2 ^ k : ℕ) : ℤ)) = (2 ^ k : ℤ) := by
  push_cast
  ring

theorem encodeWord_sign_bit (m n : ℕ) (a : ℚ) (h : 1 + m + n ≤ 32) :
    encodeWord m n a / 2 ^ 31 % 2 =
      if clampQmn m n (roundHalfEven (a * 2 ^ n)) < 0 then 1 else 0 := by
  have hs := clampQmn_mem m n (roundHalfEven (a * 2 ^ n))
  rw [encodeWord_def]
  set s := clampQmn m n (roundHalfEven (a * 2 ^ n)) with hsdef
  have hE : (0:ℤ) < 2 ^ (m + n) := by positivity
  have hEN : (0:ℕ) < 2 ^ (m + n) := by positivity
  have htb : ((2:ℤ) ^ (1 + m + n)) = 2 ^ (m + n) * 2 := by
    rw [show 1 + m + n = (m + n) + 1 by omega, pow_succ]
  have htbN : ((2:ℕ) ^ (1 + m + n)) = 2 ^ (m + n) * 2 := by
    rw [show 1 + m + n = (m + n) + 1 by omega, pow_succ]
  have h31 : (2:ℕ) ^ 31 = 2 ^ (m + n) * 2 ^ (32 - (1 + m + n)) := by
    rw [← pow_add]
    congr 1
    omega
  have hcE := pow_cast_int (m + n)
  by_cases hneg : s < 0
  · rw [if_pos hneg]
    have hmod : s % 2 ^ (1 + m + n) = s + 2 ^ (1 + m + n) :=
      emod_eq_add_self_of_neg s _ (by omega) hneg
    rw [hmod]
    have ht1 : 2 ^ (m + n) ≤ (s + 2 ^ (1 + m + n)).toNat := by omega
    have ht2 : (s + 2 ^ (1 + m + n)).toNat < 2 ^ (m + n) * 2 := by omega
    rw [h31, Nat.mul_div_mul_right _ _ (by positivity)]
    have hdiv : (s + 2 ^ (1 + m + n)).toNat / 2 ^ (m + n) = 1 := by
      apply Nat.div_eq_of_lt_le <;> omega
    rw [hdiv]
  · rw [if_neg hneg]
    have hmod : s % 2 ^ (1 + m + n) = s := by
      apply Int.emod_eq_of_lt (by omega) (by omega)
    rw [hmod]
    have ht : s.toNat < 2 ^ (m + n) := by omega
    rw [h31, Nat.mul_div_mul_right _ _ (by positivity)]
    rw [Nat.div_eq_of_lt ht]

theorem encodeWord_low_bits (m n : ℕ) (a : ℚ) :
    encodeWord m n a % 2 ^ (32 - (1 + m + n)) = 0 := by
  rw [encodeWord_def]
  exact Nat.mul_mod_left _ _

theorem encodeWord_lt (m n : ℕ) (a : ℚ) (h : 1 + m + n ≤ 32) :
    encodeWord m n a < 2 ^ 32 := by
  rw [encodeWord_def]
  have hT : (0:ℤ) < 2 ^ (1 + m + n) := by positivity
  have h1 := Int.emod_nonneg (clampQmn m n (roundHalfEven (a * 2 ^ n)))
    (ne_of_gt hT)
  have h2 := Int.emod_lt_of_pos (clampQmn m n (roundHalfEven (a * 2 ^ n))) hT
  have hcT := pow_cast_int (1 + m + n)
  have ht : (clampQmn m n (roundHalfEven (a * 2 ^ n)) % (2 ^ (1 + m + n) : ℤ)).toNat
      < 2 ^ (1 + m + n) := by omega
  calc (clampQmn m n (roundHalfEven (a * 2 ^ n)) % (2 ^ (1 + m + n) : ℤ)).toNat
        * 2 ^ (32 - (1 + m + n))
      < 2 ^ (1 + m + n) * 2 ^ (32 - (1 + m + n)) := by
        exact (Nat.mul_lt_mul_right (by positivity)).mpr ht
    _ = 2 ^ 32 := by
        rw [← pow_add]
        congr 1
        omega

end CordicLut

namespace CordicLut

/-- C5: for every input angle list and valid `m`, `n`, the output has the
same length as the input, preserves ordering (word `i` comes from angle `i`),
and every output word has bit 31 equal to the two's-complement sign bit of
the clamped scaled value while its low `32 - (1+m+n)` bits are zero. -/
theorem format_qmn_postcondition (angles : List ℚ) (m n : ℕ)
    (h : 1 + m + n ≤ 32) :
    ∃ ws, format_qmn angles m n = Except.ok ws ∧
      ws.length = angles.length ∧
      (∀ i a, angles.get? i = some a →
        ws.get? i = some (toHex8 (encodeWord m n a))) ∧
      (∀ a : ℚ, encodeWord m n a / 2 ^ 31 % 2 =
        if clampQmn m n (roundHalfEven (a * 2 ^ n)) < 0 then 1 else 0) ∧
      (∀ a : ℚ, encodeWord m n a % 2 ^ (32 - (1 + m + n)) = 0) := by
  refine ⟨angles.map fun a => toHex8 (encodeWord m n a), ?_, ?_, ?_, ?_, ?_⟩
  · simp only [format_qmn]
    rw [if_neg (by omega)]
  · exact List.length_map _ _
  · intro i a ha
    rw [List.get?_map, ha]
    rfl
  · intro a
    exact encodeWord_sign_bit m n a h
  · intro a
    exact encodeWord_low_bits m n a

theorem format_qmn_postcondition_witness :
    1 + 1 + 6 ≤ 32 ∧
    ∃ ws, format_qmn [0] 1 6 = Except.ok ws ∧
      ws.length = ([0] : List ℚ).length ∧
      (∀ i a, ([0] : List ℚ).get? i = some a →
        ws.get? i = some (toHex8 (encodeWord 1 6 a))) ∧
      (∀ a : ℚ, encodeWord 1 6 a / 2 ^ 31 % 2 =
        if clampQmn 1 6 (roundHalfEven (a * 2 ^ 6)) < 0 then 1 else 0) ∧
      (∀ a : ℚ, encodeWord 1 6 a % 2 ^ (32 - (1 + 1 + 6)) = 0) :=
  ⟨by decide, format_qmn_postcondition [0] 1 6 (by decide)⟩

theorem hexChars_length (k w : ℕ) : (hexChars k w).length = k := by
  induction k generalizing w with
  | zero => rfl
  | succ k ih => simp [hexChars, ih]

theorem hexDigitU_mem : ∀ d, d < 16 → hexDigitU d ∈ hexUpper := by
  decide

theorem hexChars_mem (k w : ℕ) : ∀ c ∈ hexChars k w, c ∈ hexUpper := by
  induction k generalizing w with
  | zero =>
    intro c hc
    simp [hexChars] at hc
  | succ k ih =>
    intro c hc
    simp only [hexChars, List.mem_append, List.mem_singleton] at hc
    rcases hc with hc | hc
    · exact ih _ _ hc
    · subst hc
      exact hexDigitU_mem _ (Nat.mod_lt _ (by norm_num))

/-- C10: for every angle list (negative or arbitrarily large values
included) and every `m`, `n` with `1 + m + n ≤ 32`, each produced word
satisfies `word < 2^32`, and its serialization is `0x` followed by exactly
8 upper-case hex digits; the clamp followed by masking keeps the value
inside the 32-bit word. -/
theorem format_qmn_word_invariant (angles : List ℚ) (m n : ℕ)
    (h : 1 + m + n ≤ 32) :
    ∃ ws, format_qmn angles m n = Except.ok ws ∧
      ∀ s ∈ ws, ∃ w : ℕ, w < 2 ^ 32 ∧ s = toHex8 w ∧
        ∃ ds : List Char, s = "0x" ++ String.mk ds ∧ ds.length = 8 ∧
          ∀ c ∈ ds, c ∈ hexUpper := by
  refine ⟨angles.map fun a => toHex8 (encodeWord m n a), ?_, ?_⟩
  · simp only [format_qmn]
    rw [if_neg (by omega)]
  · intro s hs
    rw [List.mem_map] at hs
    obtain ⟨a, _, rfl⟩ := hs
    exact ⟨encodeWord m n a, encodeWord_lt m n a h, rfl,
      hexChars 8 (encodeWord m n a), rfl, hexChars_length 8 _,
      hexChars_mem 8 _⟩

theorem format_qmn_word_invariant_witness :
    1 + 0 + 1 ≤ 32 ∧
    ∃ ws, format_qmn [-5, 1000000000000] 0 1 = Except.ok ws ∧
      ∀ s ∈ ws, ∃ w : ℕ, w < 2 ^ 32 ∧ s = toHex8 w ∧
        ∃ ds : List Char, s = "0x" ++ String.mk ds ∧ ds.length = 8 ∧
          ∀ c ∈ ds, c ∈ hexUpper :=
  ⟨by decide, format_qmn_word_invariant [-5, 1000000000000] 0 1 (by decide)⟩

end CordicLut

namespace CordicLut

theorem toSigned32_encodeWord (m n : ℕ) (a : ℚ) (h : 1 + m + n ≤ 32)
    (h1 : -(2 ^ (m + n) : ℤ) ≤ roundHalfEven (a * 2 ^ n))
    (h2 : roundHalfEven (a * 2 ^ n) ≤ 2 ^ (m + n) - 1) :
    toSigned32 (encodeWord m n a) =
      roundHalfEven (a * 2 ^ n) * 2 ^ (32 - (1 + m + n)) := by
  set s := roundHalfEven (a * 2 ^ n) with hsdef
  have hclamp : clampQmn m n s = s := clampQmn_eq_of_mem m n s h1 h2
  rw [encodeWord_def, ← hsdef, hclamp]
  have hE : (0:ℤ) < 2 ^ (m + n) := by positivity
  have htb : ((2:ℤ) ^ (1 + m + n)) = 2 ^ (m + n) * 2 := by
    rw [show 1 + m + n = (m + n) + 1 by omega, pow_succ]
  have hcE := pow_cast_int (m + n)
  have hcSh := pow_cast_int (32 - (1 + m + n))
  have h31 : ((2:ℤ) ^ 31) = 2 ^ (m + n) * 2 ^ (32 - (1 + m + n)) := by
    rw [← pow_add]
    congr 1
    omega
  have h31N : ((2:ℕ) ^ 31) = 2 ^ (m + n) * 2 ^ (32 - (1 + m + n)) := by
    rw [← pow_add]
    congr 1
    omega
  have h32 : ((2:ℤ) ^ (1 + m + n)) * 2 ^ (32 - (1 + m + n)) = 2 ^ 32 := by
    rw [← pow_add]
    congr 1
    omega
  have hShPos : (0:ℤ) < 2 ^ (32 - (1 + m + n)) := by positivity
  by_cases hneg : s < 0
  · have hmod : s % 2 ^ (1 + m + n) = s + 2 ^ (1 + m + n) :=
      emod_eq_add_self_of_neg s _ (by omega) hneg
    rw [hmod]
    have hge : ¬ ((s + 2 ^ (1 + m + n)).toNat * 2 ^ (32 - (1 + m + n)) < 2 ^ 31) := by
      push_neg
      rw [h31N]
      apply Nat.mul_le_mul_right
      omega
    simp only [toSigned32]
    rw [if_neg hge]
    push_cast [Int.toNat_of_nonneg (by omega : (0:ℤ) ≤ s + 2 ^ (1 + m + n))]
    rw [add_mul, h32]
    ring
  · have hmod : s % 2 ^ (1 + m + n) = s :=
      Int.emod_eq_of_lt (by omega) (by omega)
    rw [hmod]
    have hlt : s.toNat * 2 ^ (32 - (1 + m + n)) < 2 ^ 31 := by
      rw [h31N]
      apply Nat.mul_lt_mul_of_lt_of_le _ (le_refl _) (by positivity)
      omega
    simp only [toSigned32]
    rw [if_pos hlt]
    push_cast [Int.toNat_of_nonneg (by omega : (0:ℤ) ≤ s)]
    ring

theorem decode_encodeWord (m n : ℕ) (a : ℚ) (h : 1 + m + n ≤ 32)
    (h1 : -(2 ^ (m + n) : ℤ) ≤ roundHalfEven (a * 2 ^ n))
    (h2 : roundHalfEven (a * 2 ^ n) ≤ 2 ^ (m + n) - 1) :
    decodeWord m n (encodeWord m n a) =
      (roundHalfEven (a * 2 ^ n) : ℚ) / 2 ^ n := by
  rw [decodeWord, toSigned32_encodeWord m n a h h1 h2]
  rw [Int.mul_fdiv_cancel _ (by positivity)]

/-- C7: for every angle whose scaled value is not clamped (the rounded value
lies in `[-2^(m+n), 2^(m+n) - 1]`), decoding its word — arithmetic right
shift by `32 - (1+m+n)` with sign extension, then division by `2^n` —
yields a value within `2^-(n+1)` of the original angle. -/
theorem roundtrip_error_bound (m n : ℕ) (a : ℚ) (h : 1 + m + n ≤ 32)
    (h1 : -(2 ^ (m + n) : ℤ) ≤ roundHalfEven (a * 2 ^ n))
    (h2 : roundHalfEven (a * 2 ^ n) ≤ 2 ^ (m + n) - 1) :
    |decodeWord m n (encodeWord m n a) - a| ≤ 1 / 2 ^ (n + 1) := by
  rw [decode_encodeWord m n a h h1 h2]
  have herr := roundHalfEven_err (a * 2 ^ n)
  have hp : (0:ℚ) < 2 ^ n := by positivity
  have hsplit : (roundHalfEven (a * 2 ^ n) : ℚ) / 2 ^ n - a
      = ((roundHalfEven (a * 2 ^ n) : ℚ) - a * 2 ^ n) / 2 ^ n := by
    field_simp
    ring
  have htgt : (1:ℚ) / 2 ^ (n + 1) = (1 / 2) / 2 ^ n := by
    rw [pow_succ]
    ring
  rw [hsplit, htgt, abs_div, abs_of_pos hp]
  exact (div_le_div_iff_of_pos_right hp).mpr herr

end CordicLut

namespace CordicLut

theorem roundHalfEven_zero_mul : roundHalfEven ((0:ℚ) * 2 ^ 6) = 0 := by
  simp [roundHalfEven]

theorem roundtrip_error_bound_witness :
    (1 + 1 + 6 ≤ 32 ∧
      -(2 ^ (1 + 6) : ℤ) ≤ roundHalfEven ((0:ℚ) * 2 ^ 6) ∧
      roundHalfEven ((0:ℚ) * 2 ^ 6) ≤ 2 ^ (1 + 6) - 1) ∧
    |decodeWord 1 6 (encodeWord 1 6 0) - 0| ≤ 1 / 2 ^ (6 + 1) :=
  ⟨⟨by decide, by rw [roundHalfEven_zero_mul]; decide,
     by rw [roundHalfEven_zero_mul]; decide⟩,
   roundtrip_error_bound 1 6 0 (by decide)
     (by rw [roundHalfEven_zero_mul]; decide)
     (by rw [roundHalfEven_zero_mul]; decide)⟩

theorem pairwise_gt_map_range (g : ℕ → ℝ) (hg : ∀ i j, i < j → g j < g i)
    (k : ℕ) : ((List.range k).map g).Pairwise (· > ·) := by
  rw [List.pairwise_map]
  exact (List.pairwise_lt_range k).imp fun hab => hg _ _ hab

theorem generate_cordic_lut_fst (k : ℕ) :
    (generate_cordic_lut k).1 =
      (List.range k).map fun i : ℕ => Real.arctan ((2 : ℝ) ^ (-(i : ℤ))) := by
  induction k with
  | zero => rfl
  | succ k ih => simp [generate_cordic_lut, List.range_succ, ih]

theorem generate_cordic_lut_snd (k : ℕ) :
    (generate_cordic_lut k).2 =
      ∏ i ∈ Finset.range k, (1 / Real.sqrt (1 + (2 : ℝ) ^ (-(2 * (i : ℤ))))) := by
  induction k with
  | zero => simp [generate_cordic_lut]
  | succ k ih =>
    rw [Finset.prod_range_succ, ← ih]
    simp only [generate_cordic_lut]

/-- C3: for every `n_iter ≥ 1` the table generator returns the pair whose
first component has `angle[i] = atan(2^-i)` for `i = 0 .. n_iter - 1` (in
that order) and whose second component is the left-to-right product of
`1/sqrt(1 + 2^(-2i))` starting from `1.0`; it is a total pure function
(no failure modes, no side effects). -/
theorem generate_cordic_lut_spec (k : ℕ) (h : 1 ≤ k) :
    (generate_cordic_lut k).1 =
      ((List.range k).map fun i : ℕ => Real.arctan ((2 : ℝ) ^ (-(i : ℤ)))) ∧
    (generate_cordic_lut k).2 =
      ∏ i ∈ Finset.range k, (1 / Real.sqrt (1 + (2 : ℝ) ^ (-(2 * (i : ℤ))))) :=
  ⟨generate_cordic_lut_fst k, generate_cordic_lut_snd k⟩

theorem generate_cordic_lut_spec_witness :
    1 ≤ 1 ∧
    ((generate_cordic_lut 1).1 =
      ((List.range 1).map fun i : ℕ => Real.arctan ((2 : ℝ) ^ (-(i : ℤ)))) ∧
     (generate_cordic_lut 1).2 =
      ∏ i ∈ Finset.range 1, (1 / Real.sqrt (1 + (2 : ℝ) ^ (-(2 * (i : ℤ)))))) :=
  ⟨by decide, generate_cordic_lut_spec 1 (by decide)⟩

/-- C6: for every `n_iter ≥ 1`, the generated angle table has length
`n_iter`, is strictly decreasing, and every entry lies in `(0, π/4]`. -/
theorem angle_table_props (k : ℕ) (h : 1 ≤ k) :
    (generate_cordic_lut k).1.length = k ∧
    (generate_cordic_lut k).1.Pairwise (· > ·) ∧
    ∀ x ∈ (generate_cordic_lut k).1, 0 < x ∧ x ≤ Real.pi / 4 := by
  rw [generate_cordic_lut_fst]
  refine ⟨by rw [List.length_map, List.length_range], ?_, ?_⟩
  · apply pairwise_gt_map_range
    intro i j hij
    have hexp : -(j : ℤ) < -(i : ℤ) := by omega
    exact Real.arctan_strictMono (zpow_lt_zpow_right₀ (by norm_num) hexp)
  · intro x hx
    rw [List.mem_map] at hx
    obtain ⟨i, _, rfl⟩ := hx
    constructor
    · rw [← Real.arctan_zero]
      exact Real.arctan_strictMono (by positivity)
    · rw [← Real.arctan_one]
      exact Real.arctan_strictMono.monotone
        (zpow_le_one_of_nonpos₀ (by norm_num) (by omega))

theorem angle_table_props_witness :
    1 ≤ 2 ∧
    ((generate_cordic_lut 2).1.length = 2 ∧
     (generate_cordic_lut 2).1.Pairwise (· > ·) ∧
     ∀ x ∈ (generate_cordic_lut 2).1, 0 < x ∧ x ≤ Real.pi / 4) :=
  ⟨by decide, angle_table_props 2 (by decide)⟩

/-- C9: for `n_iter = 0` the table generator does not fail: it returns the
empty angle table and gain constant `K = 1.0`. -/
theorem generate_cordic_lut_zero : generate_cordic_lut 0 = ([], 1) := rfl

end CordicLut

namespace CordicLut

theorem assignBlock_contains (hexvals : List String) :
    ∀ i j hx, hexvals.get? j = some hx →
      strContains (assignBlock i hexvals) (assignLine (i + j) hx) = true := by
  induction hexvals with
  | nil =>
    intro i j hx hj
    simp at hj
  | cons hd tl ih =>
    intro i j hx hj
    cases j with
    | zero =>
      simp only [List.get?] at hj
      injection hj with hj
      subst hj
      simp only [assignBlock, Nat.add_zero]
      exact strContains_append_left _ _ _ (strContains_self _)
    | succ j =>
      simp only [List.get?] at hj
      have hrec := ih (i + 1) j hx hj
      simp only [assignBlock]
      rw [show i + (j + 1) = i + 1 + j by omega]
      exact strContains_append_right _ _ _ hrec

set_option maxRecDepth 8000 in
theorem vHeader_has_module : strContains vHeader "module arctan_lookup" = true := by
  decide

set_option maxRecDepth 8000 in
theorem vMid2_has_decl :
    strContains vMid2 "    reg [N-1:0] lookup_table[0:I];" = true := by
  decide

set_option maxRecDepth 8000 in
theorem vFooter_has_read :
    strContains vFooter
      "    always @(posedge clk) begin\n        arctan <= lookup_table[j];\n    end" = true := by
  decide

end CordicLut

namespace CordicLut

/-- C4 (amended): the rendered Verilog text declares the module
`arctan_lookup`, declares the register array as `lookup_table[0:I]` (`I + 1`
entries, indices `0` through `I`; only indices `0 .. I-1` receive an
assignment), contains one assignment line `lookup_table[i] <= 32'h...;` per
encoded word, and contains a second clocked process that outputs
`lookup_table[j]` for the index input `j`. -/
theorem verilog_artifact_amended (m n niter : ℕ) (hexvals : List String) :
    strContains (verilogText m n niter hexvals) "module arctan_lookup" = true ∧
    strContains (verilogText m n niter hexvals)
      "    reg [N-1:0] lookup_table[0:I];" = true ∧
    (∀ j hx, hexvals.get? j = some hx →
      strContains (verilogText m n niter hexvals) (assignLine j hx) = true) ∧
    strContains (verilogText m n niter hexvals)
      "    always @(posedge clk) begin\n        arctan <= lookup_table[j];\n    end"
      = true := by
  simp only [verilogText]
  refine ⟨?_, ?_, ?_, ?_⟩
  · exact strContains_append_left _ _ _ (strContains_append_left _ _ _
      (strContains_append_left _ _ _ (strContains_append_left _ _ _
        (strContains_append_left _ _ _ (strContains_append_left _ _ _
          vHeader_has_module)))))
  · exact strContains_append_left _ _ _ (strContains_append_left _ _ _
      (strContains_append_right _ _ _ vMid2_has_decl))
  · intro j hx hj
    have hline := assignBlock_contains hexvals 0 j hx hj
    rw [Nat.zero_add] at hline
    exact strContains_append_left _ _ _ (strContains_append_right _ _ _ hline)
  · exact strContains_append_right _ _ _ vFooter_has_read

theorem verilog_artifact_amended_witness :
    (["0x32000000"].get? 0 = some "0x32000000") ∧
    strContains (verilogText 1 6 1 ["0x32000000"]) "module arctan_lookup" = true ∧
    strContains (verilogText 1 6 1 ["0x32000000"]) (assignLine 0 "0x32000000") = true :=
  ⟨rfl, (verilog_artifact_amended 1 6 1 ["0x32000000"]).1,
    (verilog_artifact_amended 1 6 1 ["0x32000000"]).2.2.1 0 "0x32000000" rfl⟩

set_option maxRecDepth 40000 in
/-- C4 counterexample: at a concrete rendering (`m = 1`, `n = 6`,
`niter = 2`, two encoded words) the text does not declare
`lookup_table[0:I-1]`; the declaration it does contain is
`lookup_table[0:I]`. -/
theorem lookup_table_decl_counterexample :
    strContains (verilogText 1 6 2 ["0x32000000", "0x1DB00000"])
      "lookup_table[0:I-1]" = false ∧
    strContains (verilogText 1 6 2 ["0x32000000", "0x1DB00000"])
      "    reg [N-1:0] lookup_table[0:I];" = true := by
  constructor <;> decide

end CordicLut

namespace CordicLut

/-- C8: the Verilog module text is rendered exactly when the
Verilog-generation flag is set and both `m` and `n` were supplied; when the
flag is set but `m` or `n` is absent, no Verilog module is produced (the
branch is entered and the run crashes on an uncaught `TypeError` evaluating
`1 + args.m + args.n` before any module text is written, modelled by
`Except.error ()`). -/
theorem verilog_emission_gate (g : Bool) (mOpt nOpt : Option ℕ) (niter : ℕ)
    (hexvals : List String) :
    ((∃ t, mainVerilog g mOpt nOpt niter hexvals = some (Except.ok t)) ↔
      (g = true ∧ mOpt.isSome = true ∧ nOpt.isSome = true)) ∧
    (g = true → mOpt.isSome = false ∨ nOpt.isSome = false →
      mainVerilog g mOpt nOpt niter hexvals = some (Except.error ())) := by
  cases g <;> cases mOpt <;> cases nOpt <;> simp [mainVerilog]

theorem verilog_emission_gate_witness :
    mainVerilog true (some 1) none 4 [] = some (Except.error ()) :=
  (verilog_emission_gate true (some 1) none 4 []).2 rfl (Or.inr rfl)

end CordicLut
